import Mathlib

/-
Shallow embedding of the Go package `humilityai/encoder` (categorical-to-numeric
encoders: ordinal, one-hot, rolling frequency, James-Stein target encoders).

Modelling conventions:
* Go maps are modelled as association lists (`lookupA` / `updateA`); a missing
  key yields the zero value via `lookupD`, exactly as `m[k]` does in Go.
* Go runtime panics (index out of range, assignment to entry in nil map) are
  modelled by `Option`: a result of `none` means the Go code panics.
* Go `(value, error)` returns are modelled as `value x Option GoErr` pairs,
  with `none` for a nil error.
* Go `float64` arithmetic is modelled exactly over the rationals.
* Machine integers are modelled as `Nat`/`Int`, with explicit `% 2 ^ 64`
  wherever a Go conversion can overflow or underflow (see `Ordinal.Decode`).
* The `sync.RWMutex` in `Ordinal` only serialises calls; the sequential
  semantics modelled here is the behaviour of each call under the lock.
-/

namespace Encoder

/-- Association-list lookup, modelling Go's `v, ok := m[k]`. -/
def lookupA {α β : Type} [DecidableEq α] : List (α × β) → α → Option β
  | [], _ => none
  | (k, v) :: rest, key => if k = key then some v else lookupA rest key

/-- Association-list insert-or-replace, modelling Go's `m[k] = v`. -/
def updateA {α β : Type} [DecidableEq α] : List (α × β) → α → β → List (α × β)
  | [], key, val => [(key, val)]
  | (k, v) :: rest, key, val =>
      if k = key then (k, val) :: rest else (k, v) :: updateA rest key val

/-- Lookup with a default, modelling Go's `m[k]` read (zero value if absent). -/
def lookupD {α β : Type} [DecidableEq α] (m : List (α × β)) (key : α) (d : β) : β :=
  (lookupA m key).getD d

/-- `sam.MapStringInt.Increment`: `m[key]++` on a (non-nil) Go map. -/
def incrCount (m : List (String × Nat)) (key : String) : List (String × Nat) :=
  updateA m key (lookupD m key 0 + 1)

/-- The sentinel errors of `err.go`. -/
inductive GoErr
  | ErrBounds
  | ErrLength
  | ErrTargetLength
deriving DecidableEq

/-- `OneHot` from `onehot.go`: `encoder` is the `sam.MapStringInt` from value
to dimension, `decoder` the `sam.SliceString` of values. -/
structure OneHot where
  encoder : List (String × Nat)
  decoder : List String
deriving DecidableEq

/-- `OneHot.code` from `onehot.go`:
`code = make([]uint8, len(e.decoder)); dim := e.encoder[s]; code[dim] = 1`.
The write `code[dim] = 1` panics (modelled by `none`) unless `dim` is within
the freshly allocated slice of length `len(e.decoder)`. -/
def OneHot.codeword (e : OneHot) (s : String) : Option (List Nat) :=
  let n := e.decoder.length
  let dim := (lookupA e.encoder s).getD 0
  if dim < n then some ((List.replicate n 0).set dim 1) else none

/-- `OneHot.Encode` from `onehot.go`: on a new value it appends to `decoder`
and stores `e.encoder[s] = len(e.decoder)` (the length measured after the
append), then returns `e.code(s)`. A `none` result models a Go panic inside
`code`. -/
def OneHot.Encode (e : OneHot) (s : String) : Option (List Nat × OneHot) :=
  match lookupA e.encoder s with
  | none =>
      let d := e.decoder ++ [s]
      let e' : OneHot := { encoder := updateA e.encoder s d.length, decoder := d }
      (e'.codeword s).map (fun c => (c, e'))
  | some _ => (e.codeword s).map (fun c => (c, e))

/-- `NewOneHot` from `onehot.go`: builds the empty encoder and immediately
calls `e.Encode("")`; `none` models a panic escaping the constructor. -/
def NewOneHot : Option OneHot :=
  (OneHot.Encode { encoder := [], decoder := [] } "").map (fun p => p.2)

/-- Position of the first `1` in a codeword, if any. -/
def firstOneIdx : List Nat → Option Nat
  | [] => none
  | a :: rest => if a = 1 then some 0 else (firstOneIdx rest).map (· + 1)

/-- The `dim` computed by the loop in `OneHot.Decode`: the index of the first
entry equal to `1`, or `0` when no entry equals `1`. -/
def oneDim (code : List Nat) : Nat :=
  (firstOneIdx code).getD 0

/-- `OneHot.Decode` from `onehot.go`: returns `("", ErrLength)` when the
codeword is longer than `decoder`, otherwise `decoder[dim]` for the first set
dimension. The final indexing `e.decoder[dim]` can panic (`none`) when
`decoder` is empty. -/
def OneHot.Decode (e : OneHot) (code : List Nat) : Option (String × Option GoErr) :=
  if e.decoder.length < code.length then some ("", some GoErr.ErrLength)
  else (e.decoder.get? (oneDim code)).map (fun v => (v, none))

/-- UTF-8 bytes of a single character, as produced by Go's `[]byte(s)`. -/
def charBytes (c : Char) : List Nat :=
  let n := c.toNat
  if n < 128 then [n]
  else if n < 2048 then [192 + n / 64, 128 + n % 64]
  else if n < 65536 then [224 + n / 4096, 128 + n / 64 % 64, 128 + n % 64]
  else [240 + n / 262144, 128 + n / 4096 % 64, 128 + n / 64 % 64, 128 + n % 64]

/-- UTF-8 byte sequence of a string, Go's `[]byte(s)`. -/
def utf8Bytes (s : String) : List Nat :=
  (s.data.map charBytes).flatten

/-- 64-bit FNV-1a hash (`hash/fnv`, `fnv.New64a`), on `Nat` with explicit
wrap-around at `2 ^ 64`. `hasher.Write` never returns an error on bytes, so
the error branches guarding it in `ordinal.go` are dead code. -/
def fnv64a (bytes : List Nat) : Nat :=
  bytes.foldl (fun h b => ((h ^^^ b) * 1099511628211) % 2 ^ 64) 14695981039346656037

/-- `Ordinal` from `ordinal.go`: `encoder` maps the FNV-1a hash of a value to
its code, `decoder` lists the values in code order. -/
structure Ordinal where
  encoder : List (Nat × Nat)
  decoder : List String
deriving DecidableEq

/-- `Ordinal.Encode` from `ordinal.go`: a new value receives the code
`uint64(len(e.decoder))` (measured before the append) keyed by its hash. -/
def Ordinal.Encode (e : Ordinal) (s : String) : Nat × Ordinal :=
  let h := fnv64a (utf8Bytes s)
  match lookupA e.encoder h with
  | none =>
      let code := e.decoder.length
      (code, { encoder := updateA e.encoder h code, decoder := e.decoder ++ [s] })
  | some v => (v, e)

/-- `NewOrdinal` from `ordinal.go`: empty maps, plus `e.Encode("")` when
`init` is true. -/
def NewOrdinal (init : Bool) : Ordinal :=
  if init then (Ordinal.Encode { encoder := [], decoder := [] } "").2
  else { encoder := [], decoder := [] }

/-- `Ordinal.Decode` from `ordinal.go`: the guard is
`i > uint64(len(e.decoder)-1) || i < 0` with `i : uint64`, so `i < 0` is
always false (omitted) and `uint64(len(e.decoder)-1)` is the conversion of the
signed length minus one, wrapping modulo `2 ^ 64` (for an empty decoder it is
`2 ^ 64 - 1`). The unguarded indexing `e.decoder[i]` panics (`none`) when `i`
is out of range. -/
def Ordinal.Decode (e : Ordinal) (i : Nat) : Option String :=
  if i > Int.toNat ((Int.ofNat e.decoder.length - 1) % 2 ^ 64) then some ""
  else e.decoder.get? i

/-- `Ordinal.ContainsCode` from `ordinal.go`:
`if len(e.decoder) >= code { return false }; return true`. -/
def Ordinal.ContainsCode (e : Ordinal) (code : Int) : Bool :=
  if Int.ofNat e.decoder.length ≥ code then false else true

/-- `Ordinal.Length` from `ordinal.go`. -/
def Ordinal.Length (e : Ordinal) : Nat :=
  e.decoder.length

/-- `RollingFrequency` from `frequency.go`. -/
structure RollingFrequency where
  window : Nat
  codes : List Nat
deriving DecidableEq

/-- The loop body of `NewRollingFrequency`: at index `i` the counting table is
cleared when `i % window == 0`, the current value's count is incremented, and
`codes[i] = encoder[values[i]]` records the post-increment count. (Go would
panic on `i % window` for `window = 0`; the model is only used at positive
windows.) -/
def rollLoop (w : Nat) : List String → Nat → List (String × Nat) → List Nat
  | [], _, _ => []
  | v :: rest, i, enc =>
      let enc2 := incrCount (if i % w = 0 then [] else enc) v
      lookupD enc2 v 0 :: rollLoop w rest (i + 1) enc2

/-- `NewRollingFrequency` from `frequency.go`. -/
def NewRollingFrequency (window : Nat) (values : List String) : RollingFrequency :=
  { window := window, codes := rollLoop window values 0 [] }

/-- Start of the window containing observation `i` (zero-based): the counting
table was last cleared at the largest multiple of `w` not exceeding `i`. -/
def windowStart (w i : Nat) : Nat := w * (i / w)

/-- Number of occurrences of `v` among observations of the window of `i`, up
to and including `i` itself. -/
def countInWindow (w : Nat) (values : List String) (i : Nat) (v : String) : Nat :=
  ((values.drop (windowStart w i)).take (i + 1 - windowStart w i)).count v

/-- `JamesSteinRegression` from `james-stein.go` (float64 codes as `ℚ`). -/
structure JamesSteinRegression where
  encoder : List (String × ℚ)
deriving DecidableEq

/-- `JamesSteinClassification` from `james-stein.go`. -/
structure JamesSteinClassification where
  encodedValues : List ℚ
deriving DecidableEq

/-- `sam.SliceFloat64.Avg`: the arithmetic mean (sum divided by length). -/
def Avg (l : List ℚ) : ℚ :=
  l.sum / (l.length : ℚ)

/-- The grouping loop of `NewJamesSteinRegression`:
`targetValues[values[i]] = append(targetValues[values[i]], target[i])` over the
zipped input (a missing key reads as the nil slice, i.e. `[]`). -/
def buildTargetValues : List (String × ℚ) → List (String × List ℚ) → List (String × List ℚ)
  | [], acc => acc
  | (v, t) :: rest, acc => buildTargetValues rest (updateA acc v (lookupD acc v [] ++ [t]))

/-- `NewJamesSteinRegression` from `james-stein.go`: length-mismatch inputs
return the empty encoder with `ErrTargetLength`; otherwise each category maps
to the `Avg` of its grouped targets. -/
def NewJamesSteinRegression (values : List String) (target : List ℚ) :
    JamesSteinRegression × Option GoErr :=
  if target.length ≠ values.length then ({ encoder := [] }, some GoErr.ErrTargetLength)
  else
    ({ encoder := (buildTargetValues (values.zip target) []).map (fun p => (p.1, Avg p.2)) },
      none)

/-- `JamesSteinRegression.Get` from `james-stein.go`:
`v, ok := e.encoder[s]; return v, ok`. -/
def JamesSteinRegression.Get (e : JamesSteinRegression) (s : String) : ℚ × Bool :=
  match lookupA e.encoder s with
  | some v => (v, true)
  | none => (0, false)

/-- `groupClassCounts[group].Increment(class)` in
`NewJamesSteinClassification`: `groupClassCounts` is a
`map[string]sam.MapStringInt` whose inner maps are never created, so the read
of a missing group yields a nil map and `Increment` (`m[k]++`) on it panics
with "assignment to entry in nil map" (modelled by `none`). -/
def incrInner (gc : List (String × List (String × Nat))) (grp cl : String) :
    Option (List (String × List (String × Nat))) :=
  match lookupA gc grp with
  | none => none
  | some inner => some (updateA gc grp (incrCount inner cl))

/-- The counting loop of `NewJamesSteinClassification`: per observation it
increments `groupCounts`, `classCounts` and `groupClassCounts[group][class]`;
the last step panics on a nil inner map. -/
def jscCount : List (String × String) → List (String × Nat) → List (String × Nat) →
    List (String × List (String × Nat)) →
    Option (List (String × Nat) × List (String × Nat) × List (String × List (String × Nat)))
  | [], g, c, gc => some (g, c, gc)
  | (grp, cl) :: rest, g, c, gc =>
      match incrInner gc grp cl with
      | none => none
      | some gc' => jscCount rest (incrCount g grp) (incrCount c cl) gc'

/-- Inner loop of the B-value computation in `NewJamesSteinClassification`.
`classCounts` here is the loop variable `for group, classCounts := range
groupClassCounts`, which shadows the batch-wide `classCounts` map, so
`classCount := classCounts[class]` reads the group-local count. `innerB` is
`groupClassBValues[group]`; it is `none` (a nil map) unless an entry was
stored for the group, and the assignment
`groupClassBValues[group][class] = ...` through a nil map panics. -/
def jscBInner (total groupCount : Nat) (classCounts : List (String × Nat)) :
    List (String × Nat) → Option (List (String × ℚ)) → Option (List (String × ℚ))
  | [], innerB => some (innerB.getD [])
  | (cl, count) :: rest, innerB =>
      let classCount := lookupD classCounts cl 0
      let groupClassPercentage : ℚ := (count : ℚ) / (classCount : ℚ)
      let classPercentage : ℚ := (classCount : ℚ) / (total : ℚ)
      let groupClassValue : ℚ := groupClassPercentage * (1 - groupClassPercentage) / (groupCount : ℚ)
      let classValue : ℚ := classPercentage * (1 - classPercentage) / (total : ℚ)
      match innerB with
      | none => none
      | some m =>
          jscBInner total groupCount classCounts rest
            (some (updateA m cl (groupClassValue / (groupClassValue + classValue))))

/-- Outer loop of the B-value computation, over the groups of
`groupClassCounts` (storing an empty inner list for a group that produced no
assignments is indistinguishable from Go's absent entry under lookups). -/
def jscBLoop (total : Nat) (groupCounts : List (String × Nat)) :
    List (String × List (String × Nat)) → List (String × List (String × ℚ)) →
    Option (List (String × List (String × ℚ)))
  | [], acc => some acc
  | (grp, inner) :: rest, acc =>
      match jscBInner total (lookupD groupCounts grp 0) inner inner (lookupA acc grp) with
      | none => none
      | some newInner => jscBLoop total groupCounts rest (updateA acc grp newInner)

/-- The final loop of `NewJamesSteinClassification`:
`encodedValues[i] = groupClassBValues[group][class]` (reads of missing or nil
maps yield the zero value `0.0`). -/
def jscCodes (b : List (String × List (String × ℚ))) (pairs : List (String × String)) :
    List ℚ :=
  pairs.map (fun p => lookupD ((lookupA b p.1).getD []) p.2 0)

/-- `NewJamesSteinClassification` from `james-stein.go`; `none` models a Go
panic escaping the constructor. -/
def NewJamesSteinClassification (values target : List String) :
    Option (JamesSteinClassification × Option GoErr) :=
  if target.length ≠ values.length then
    some ({ encodedValues := [] }, some GoErr.ErrTargetLength)
  else
    match jscCount (values.zip target) [] [] [] with
    | none => none
    | some (g, _, gc) =>
        match jscBLoop target.length g gc [] with
        | none => none
        | some b => some ({ encodedValues := jscCodes b (values.zip target) }, none)

/-- The targets paired with category `c` in a zipped batch, in input order. -/
def pairTargets (l : List (String × ℚ)) (c : String) : List ℚ :=
  l.filterMap (fun p => if p.1 = c then some p.2 else none)

/-- The targets paired with category `c` in the batch `(values, target)`. -/
def jsrTargets (values : List String) (target : List ℚ) (c : String) : List ℚ :=
  pairTargets (values.zip target) c

theorem lookupA_updateA_self {α β : Type} [DecidableEq α]
    (m : List (α × β)) (k : α) (v : β) :
    lookupA (updateA m k v) k = some v := by
  induction m with
  | nil => simp [updateA, lookupA]
  | cons p rest ih =>
    obtain ⟨k', v'⟩ := p
    by_cases h : k' = k <;> simp [updateA, lookupA, h, ih]

theorem lookupA_updateA_ne {α β : Type} [DecidableEq α]
    (m : List (α × β)) (k u : α) (v : β) (h : u ≠ k) :
    lookupA (updateA m k v) u = lookupA m u := by
  induction m with
  | nil => simp [updateA, lookupA, if_neg (fun hh : k = u => h hh.symm)]
  | cons p rest ih =>
    obtain ⟨k', v'⟩ := p
    by_cases hk : k' = k
    · subst hk
      simp [updateA, lookupA, if_neg (fun hh : k' = u => h hh.symm)]
    · by_cases hu : k' = u <;> simp [updateA, lookupA, hk, hu, h, ih]

theorem incrCount_self (m : List (String × Nat)) (key : String) :
    lookupD (incrCount m key) key 0 = lookupD m key 0 + 1 := by
  simp [incrCount, lookupD, lookupA_updateA_self]

theorem incrCount_ne (m : List (String × Nat)) (key u : String) (h : u ≠ key) :
    lookupD (incrCount m key) u 0 = lookupD m u 0 := by
  simp [incrCount, lookupD, lookupA_updateA_ne _ _ _ _ h]

theorem firstOneIdx_of_not_mem : ∀ (code : List Nat), 1 ∉ code → firstOneIdx code = none := by
  intro code h
  induction code with
  | nil => rfl
  | cons a rest ih =>
    have ha : ¬a = 1 := fun hh => h (hh ▸ List.mem_cons_self a rest)
    have hr : 1 ∉ rest := fun hh => h (List.mem_cons_of_mem a hh)
    simp [firstOneIdx, ha, ih hr]

theorem firstOneIdx_of_mem : ∀ (code : List Nat), 1 ∈ code →
    ∃ i, firstOneIdx code = some i ∧ i < code.length := by
  intro code h
  induction code with
  | nil => simp at h
  | cons a rest ih =>
    by_cases ha : a = 1
    · exact ⟨0, by simp [firstOneIdx, ha], by simp⟩
    · have hr : 1 ∈ rest := by
        rcases List.mem_cons.mp h with h1 | h1
        · exact absurd h1.symm ha
        · exact h1
      obtain ⟨i, hi, hlen⟩ := ih hr
      exact ⟨i + 1, by simp [firstOneIdx, ha, hi], by simpa using Nat.succ_lt_succ hlen⟩

/-- Claim C1 (code_bug): the spec promises that `OneHot.Encode(s)` returns a
one-hot vector with the single `1` at the dimension assigned to `s`. In the
code, a new value is stored with dimension `len(decoder)` measured after the
append (one past its slice index), and `code` then writes `code[dim]` into a
slice of length `len(decoder)`: every newly encoded string panics with an
index-out-of-range, so `NewOneHot()` itself (which encodes `""`) panics. -/
theorem oneHot_encode_new_value_panics :
    NewOneHot = none ∧
    ∀ (e : OneHot) (s : String), lookupA e.encoder s = none → OneHot.Encode e s = none := by
  have h2 : ∀ (e : OneHot) (s : String), lookupA e.encoder s = none →
      OneHot.Encode e s = none := by
    intro e s h
    simp only [OneHot.Encode, h]
    simp [OneHot.codeword, lookupA_updateA_self]
  refine ⟨?_, h2⟩
  rw [NewOneHot, h2 { encoder := [], decoder := [] } "" rfl]
  rfl

/-- Witness for C1: encoding a fresh value on the empty encoder panics. -/
theorem oneHot_encode_new_value_panics_witness :
    OneHot.Encode { encoder := [], decoder := [] } "x" = none :=
  oneHot_encode_new_value_panics.2 { encoder := [], decoder := [] } "x" rfl

/-- Claim C2 (code_bug): the spec promises `Decode` returns `""` and never
raises for every code when the vocabulary is empty. In the code the guard
compares against `uint64(len(e.decoder)-1)`, which underflows to `2^64 - 1`
for an empty decoder, so the guard never fires and `e.decoder[i]` panics
(modelled by `none`) on a fresh `NewOrdinal(false)` encoder. -/
theorem ordinal_decode_empty_vocabulary_panics :
    Ordinal.Decode (NewOrdinal false) 0 = none ∧
    Ordinal.Decode (NewOrdinal false) 5 = none := by decide

/-- Claim C3 (code_bug): the spec promises James-Stein classification codes
`B` in `[0, 1]` aligned with the input. In the code the inner maps of
`groupClassCounts` are never created, so `groupClassCounts[group].Increment`
runs `m[k]++` on a nil map and panics on the very first observation: the
constructor panics (`none`) for every non-empty equal-length input. -/
theorem jamesSteinClassification_construction_panics :
    NewJamesSteinClassification ["a"] ["x"] = none ∧
    ∀ (v t : String) (vs ts : List String), vs.length = ts.length →
      NewJamesSteinClassification (v :: vs) (t :: ts) = none := by
  have h2 : ∀ (v t : String) (vs ts : List String), vs.length = ts.length →
      NewJamesSteinClassification (v :: vs) (t :: ts) = none := by
    intro v t vs ts hlen
    have hg : ¬((t :: ts).length ≠ (v :: vs).length) := by simp [hlen]
    simp only [NewJamesSteinClassification]
    rw [if_neg hg]
    simp [jscCount, incrInner, lookupA, List.zip_cons_cons]
  exact ⟨h2 "a" "x" [] [] rfl, h2⟩

/-- Witness for C3: the constructor panics on a concrete one-row input. -/
theorem jamesSteinClassification_construction_panics_witness :
    NewJamesSteinClassification ["b"] ["y"] = none :=
  jamesSteinClassification_construction_panics.2 "b" "y" [] [] rfl

/-- Claim C4 (code_bug): `Ordinal.Decode(Ordinal.Encode(s)) = s` does hold on
a concrete fresh encoder, but the one-hot half of the claim fails: every
`OneHot.Encode` of a new value panics (see C1), so
`OneHot.Decode(OneHot.Encode(s))` can never return `s`. -/
theorem ordinal_roundtrip_holds_oneHot_encode_panics :
    Ordinal.Decode (Ordinal.Encode (NewOrdinal false) "a").2
        (Ordinal.Encode (NewOrdinal false) "a").1 = some "a" ∧
    OneHot.Encode { encoder := [], decoder := [] } "a" = none := by decide

/-- Claim C6 (code_bug): the spec says `ContainsCode(code)` is true iff
`code ∈ [0, Length())`. The code's comparison is inverted
(`len(decoder) >= code` means "invalid"): on a vocabulary of size 1 it
returns `false` for the valid code `0` and `true` for the invalid code `5`. -/
theorem ordinal_containsCode_inverted :
    Ordinal.ContainsCode (NewOrdinal true) 0 = false ∧
    Ordinal.ContainsCode (NewOrdinal true) 5 = true := by decide

/-- Claim C9 (confirmed): with unequal input lengths both James-Stein
constructors immediately return `ErrTargetLength` together with an encoder
containing no fitted codes. -/
theorem jamesStein_length_mismatch_errors :
    ∀ (values ts : List String) (tq : List ℚ),
      values.length ≠ tq.length → values.length ≠ ts.length →
      NewJamesSteinRegression values tq = ({ encoder := [] }, some GoErr.ErrTargetLength) ∧
      NewJamesSteinClassification values ts =
        some ({ encodedValues := [] }, some GoErr.ErrTargetLength) := by
  intro values ts tq h1 h2
  constructor
  · simp only [NewJamesSteinRegression]
    rw [if_pos (Ne.symm h1)]
  · simp only [NewJamesSteinClassification]
    rw [if_pos (Ne.symm h2)]

/-- Witness for C9 at a concrete mismatched input. -/
theorem jamesStein_length_mismatch_errors_witness :
    NewJamesSteinRegression ["a"] [] = ({ encoder := [] }, some GoErr.ErrTargetLength) ∧
    NewJamesSteinClassification ["a"] [] =
      some ({ encodedValues := [] }, some GoErr.ErrTargetLength) :=
  jamesStein_length_mismatch_errors ["a"] [] [] (by decide) (by decide)

/-- Counterexample for claim C5 as stated: on a vocabulary of size 2, the
shorter codeword `[1]` decodes without any error (the claim says it must fail
with the length-mismatch error), while the longer codeword `[0,1,0]` is the
one rejected with `ErrLength` (the claim says codewords at least as long as
the vocabulary decode without error). -/
theorem oneHot_decode_length_direction_counterexample :
    OneHot.Decode { encoder := [("", 1), ("a", 2)], decoder := ["", "a"] } [1] =
      some ("", none) ∧
    OneHot.Decode { encoder := [("", 1), ("a", 2)], decoder := ["", "a"] } [0, 1, 0] =
      some ("", some GoErr.ErrLength) := by decide

/-- Claim C5 (corrected): `OneHot.Decode` fails with `ErrLength` exactly when
the codeword is longer than the current vocabulary; every codeword at most as
long as the vocabulary that contains a `1` decodes, without error, to the
category at the dimension of the first `1`. -/
theorem oneHot_decode_length_check_amended :
    ∀ (e : OneHot) (code : List Nat),
      (OneHot.Decode e code = some ("", some GoErr.ErrLength) ↔
        e.decoder.length < code.length) ∧
      (code.length ≤ e.decoder.length → 1 ∈ code →
        ∃ v, e.decoder.get? (oneDim code) = some v ∧
          OneHot.Decode e code = some (v, none)) := by
  intro e code
  constructor
  · constructor
    · intro h
      by_contra hlt
      rw [OneHot.Decode, if_neg hlt] at h
      cases hg : e.decoder.get? (oneDim code) with
      | none => rw [hg] at h; simp at h
      | some v => rw [hg] at h; simp at h
    · intro h
      rw [OneHot.Decode, if_pos h]
  · intro hle hmem
    obtain ⟨i, hi, hilt⟩ := firstOneIdx_of_mem code hmem
    have hdim : oneDim code = i := by simp [oneDim, hi]
    have hlt : oneDim code < e.decoder.length := by
      rw [hdim]; exact lt_of_lt_of_le hilt hle
    have hg : e.decoder.get? (oneDim code) = some (e.decoder.get ⟨oneDim code, hlt⟩) :=
      List.get?_eq_get hlt
    refine ⟨_, hg, ?_⟩
    rw [OneHot.Decode, if_neg (not_lt.mpr hle), hg]
    rfl

/-- Witness for the amended C5: decoding `[0,1]` on a 2-dimensional
vocabulary returns the category at dimension 1 without error. -/
theorem oneHot_decode_length_check_amended_witness :
    ∃ v, ({ encoder := [("", 1), ("a", 2)], decoder := ["", "a"] } : OneHot).decoder.get?
        (oneDim [0, 1]) = some v ∧
      OneHot.Decode { encoder := [("", 1), ("a", 2)], decoder := ["", "a"] } [0, 1] =
        some (v, none) :=
  (oneHot_decode_length_check_amended
    { encoder := [("", 1), ("a", 2)], decoder := ["", "a"] } [0, 1]).2
    (by decide) (by decide)

/-- Claim C10 (confirmed): on a non-empty vocabulary, a codeword that passes
the length check and contains no `1` decodes, with a nil error, to the
category at dimension 0 (`dim` stays `0` in the scanning loop), rather than
being reported as invalid. -/
theorem oneHot_decode_all_zero_dimension_zero :
    ∀ (e : OneHot) (code : List Nat),
      e.decoder ≠ [] → code.length ≤ e.decoder.length → 1 ∉ code →
      ∃ v0, e.decoder.get? 0 = some v0 ∧ OneHot.Decode e code = some (v0, none) := by
  intro e code hne hle hmem
  have hdim : oneDim code = 0 := by simp [oneDim, firstOneIdx_of_not_mem code hmem]
  cases hd : e.decoder with
  | nil => exact absurd hd hne
  | cons v0 rest =>
    refine ⟨v0, by simp [hd], ?_⟩
    rw [OneHot.Decode, if_neg (not_lt.mpr hle), hdim, hd]
    rfl

/-- Witness for C10: the all-zero codeword `[0]` on the vocabulary `[""]`
decodes to the pre-seeded empty string with a nil error. -/
theorem oneHot_decode_all_zero_dimension_zero_witness :
    ∃ v0, ({ encoder := [("", 1)], decoder := [""] } : OneHot).decoder.get? 0 = some v0 ∧
      OneHot.Decode { encoder := [("", 1)], decoder := [""] } [0] = some (v0, none) :=
  oneHot_decode_all_zero_dimension_zero { encoder := [("", 1)], decoder := [""] } [0]
    (by decide) (by decide) (by decide)

theorem dropGet {α : Type} (l : List α) (n : Nat) : ∀ m, (l.drop n).get? m = l.get? (n + m) := by
  induction n generalizing l with
  | zero => simp
  | succ n ih =>
    intro m
    cases l with
    | nil => simp
    | cons a l =>
      rw [Nat.succ_add]
      exact ih l m

theorem dropSucc {α : Type} (l : List α) : ∀ (d : Nat) (a : α) (rest : List α),
    l.drop d = a :: rest → l.drop (d + 1) = rest := by
  induction l with
  | nil => intro d a rest h; simp at h
  | cons b l ih =>
    intro d a rest h
    cases d with
    | zero =>
      simp at h
      simp [h.2]
    | succ d =>
      have h' : l.drop d = a :: rest := h
      exact ih d a rest h'

theorem windowStart_le (w d : Nat) : windowStart w d ≤ d := by
  simpa [windowStart, Nat.mul_comm] using Nat.div_mul_le_self d w

theorem windowStart_eq_self (w d : Nat) (h : d % w = 0) : windowStart w d = d :=
  Nat.mul_div_cancel' (Nat.dvd_of_mod_eq_zero h)

theorem windowStart_succ (w d : Nat) (h : (d + 1) % w ≠ 0) :
    windowStart w (d + 1) = windowStart w d := by
  have hnd : ¬w ∣ (d + 1) := fun hdvd => h (Nat.dvd_iff_mod_eq_zero.mp hdvd)
  unfold windowStart
  rw [Nat.succ_div, if_neg hnd, Nat.add_zero]

theorem rollLoop_count (w : Nat) (values : List String) :
    ∀ (rest : List String) (d : Nat) (enc : List (String × Nat)),
      values.drop d = rest →
      (d % w ≠ 0 → ∀ u, lookupD enc u 0 =
        ((values.drop (windowStart w d)).take (d - windowStart w d)).count u) →
      ∀ (k : Nat) (v : String), k < rest.length → values.get? (d + k) = some v →
        (rollLoop w rest d enc).get? k = some (countInWindow w values (d + k) v) := by
  intro rest
  induction rest with
  | nil =>
    intro d enc _ _ k v hk _
    exact absurd hk (Nat.not_lt_zero k)
  | cons v0 rest ih =>
    intro d enc hdrop hinv k v hk hget
    have hd0 : values.get? d = some v0 := by
      have h := dropGet values d 0
      rw [hdrop] at h
      simpa using h.symm
    have hs_le : windowStart w d ≤ d := windowStart_le w d
    have hA : ∀ u, lookupD (if d % w = 0 then [] else enc) u 0 =
        ((values.drop (windowStart w d)).take (d - windowStart w d)).count u := by
      intro u
      by_cases h0 : d % w = 0
      · rw [if_pos h0, windowStart_eq_self w d h0]
        simp [lookupD, lookupA]
      · rw [if_neg h0]
        exact hinv h0 u
    have hB : ∀ u, lookupD (incrCount (if d % w = 0 then [] else enc) v0) u 0 =
        ((values.drop (windowStart w d)).take (d + 1 - windowStart w d)).count u := by
      intro u
      have htake : (values.drop (windowStart w d)).take (d + 1 - windowStart w d) =
          (values.drop (windowStart w d)).take (d - windowStart w d) ++ [v0] := by
        have h1 : d + 1 - windowStart w d = (d - windowStart w d) + 1 := by omega
        rw [h1, List.take_succ]
        have h2 : (values.drop (windowStart w d))[d - windowStart w d]? = some v0 := by
          rw [← List.get?_eq_getElem?, dropGet]
          have h3 : windowStart w d + (d - windowStart w d) = d := by omega
          rw [h3]
          exact hd0
        rw [h2]
        rfl
      rw [htake, List.count_append]
      by_cases hu : u = v0
      · subst hu
        rw [incrCount_self, hA u]
        simp [List.count_cons]
      · rw [incrCount_ne _ _ _ hu, hA u]
        simp [List.count_cons, Ne.symm hu]
    cases k with
    | zero =>
      have hv : v = v0 := by
        rw [Nat.add_zero] at hget
        exact Option.some.inj (hget.symm.trans hd0)
      subst hv
      show some (lookupD (incrCount (if d % w = 0 then [] else enc) v) v 0) = _
      rw [Nat.add_zero]
      simp only [countInWindow]
      exact congrArg some (hB v)
    | succ k' =>
      have hstep : (rollLoop w (v0 :: rest) d enc).get? (k' + 1) =
          (rollLoop w rest (d + 1) (incrCount (if d % w = 0 then [] else enc) v0)).get? k' :=
        rfl
      rw [hstep]
      have hrest : values.drop (d + 1) = rest := dropSucc values d v0 rest hdrop
      have hinv' : (d + 1) % w ≠ 0 → ∀ u,
          lookupD (incrCount (if d % w = 0 then [] else enc) v0) u 0 =
          ((values.drop (windowStart w (d + 1))).take ((d + 1) - windowStart w (d + 1))).count u := by
        intro h1 u
        rw [windowStart_succ w d h1]
        exact hB u
      have hk' : k' < rest.length := Nat.lt_of_succ_lt_succ (by simpa using hk)
      have hget' : values.get? ((d + 1) + k') = some v := by
        have heq : (d + 1) + k' = d + (k' + 1) := by omega
        rw [heq]
        exact hget
      have hrec := ih (d + 1) (incrCount (if d % w = 0 then [] else enc) v0)
        hrest hinv' k' v hk' hget'
      have heq : (d + 1) + k' = d + (k' + 1) := by omega
      rw [heq] at hrec
      exact hrec

/-- Claim C7 (confirmed): for every positive window the counting table resets
at every observation index that is a multiple of the window, so the code of
observation `i` is the number of occurrences of its value among the
observations from the window start `w * (i / w)` through `i` itself (first
occurrence in a window yields 1); and window 3 on `[x,x,y,x,y,y]` yields
`[1,2,1,1,1,2]`. -/
theorem rollingFrequency_window_running_count :
    (∀ (w : Nat) (values : List String) (i : Nat) (v : String),
      0 < w → values.get? i = some v →
      (NewRollingFrequency w values).codes.get? i = some (countInWindow w values i v)) ∧
    (NewRollingFrequency 3 ["x", "x", "y", "x", "y", "y"]).codes = [1, 2, 1, 1, 1, 2] := by
  constructor
  · intro w values i v _ hget
    have hlen : i < values.length := by
      obtain ⟨h, _⟩ := List.get?_eq_some.mp hget
      exact h
    have hget0 : values.get? (0 + i) = some v := by
      rw [Nat.zero_add]
      exact hget
    have h := rollLoop_count w values values 0 []
      rfl (fun h0 => absurd (Nat.zero_mod w) h0) i v hlen hget0
    rw [Nat.zero_add] at h
    exact h
  · decide

/-- Witness for C7: observation 5 of the worked example (`"y"`, second
occurrence in the window starting at index 3) gets code
`countInWindow 3 values 5 "y" = 2`. -/
theorem rollingFrequency_window_running_count_witness :
    (NewRollingFrequency 3 ["x", "x", "y", "x", "y", "y"]).codes.get? 5 =
      some (countInWindow 3 ["x", "x", "y", "x", "y", "y"] 5 "y") :=
  rollingFrequency_window_running_count.1 3 ["x", "x", "y", "x", "y", "y"] 5 "y"
    (by decide) (by decide)

theorem lookupA_map_value {β γ : Type} (f : β → γ) :
    ∀ (m : List (String × β)) (c : String),
      lookupA (m.map (fun p => (p.1, f p.2))) c = (lookupA m c).map f := by
  intro m c
  induction m with
  | nil => rfl
  | cons p rest ih =>
    obtain ⟨k, v⟩ := p
    by_cases h : k = c <;> simp [lookupA, h, ih]

theorem buildTargetValues_lookup :
    ∀ (l : List (String × ℚ)) (acc : List (String × List ℚ)) (c : String),
      (c ∈ l.map Prod.fst ∨ (lookupA acc c).isSome = true) →
      lookupA (buildTargetValues l acc) c = some (lookupD acc c [] ++ pairTargets l c) := by
  intro l
  induction l with
  | nil =>
    intro acc c h
    rcases h with h | h
    · simp at h
    · obtain ⟨ts, hts⟩ := Option.isSome_iff_exists.mp h
      simp [buildTargetValues, pairTargets, lookupD, hts]
  | cons p rest ih =>
    obtain ⟨v, t⟩ := p
    intro acc c h
    show lookupA (buildTargetValues rest (updateA acc v (lookupD acc v [] ++ [t]))) c = _
    by_cases hvc : v = c
    · subst hvc
      have hupd : ∀ val : List ℚ, lookupA (updateA acc v val) v = some val :=
        lookupA_updateA_self acc v
      rw [ih (updateA acc v (lookupD acc v [] ++ [t])) v (Or.inr (by rw [hupd]; rfl))]
      have hD : lookupD (updateA acc v (lookupD acc v [] ++ [t])) v [] =
          lookupD acc v [] ++ [t] := by simp [lookupD, hupd]
      have hP : pairTargets ((v, t) :: rest) v = t :: pairTargets rest v := by
        simp [pairTargets, List.filterMap_cons]
      rw [hD, hP]
      simp
    · have hupd : ∀ val : List ℚ, lookupA (updateA acc v val) c = lookupA acc c :=
        fun val => lookupA_updateA_ne acc v c val (fun hh => hvc hh.symm)
      have h' : c ∈ rest.map Prod.fst ∨
          (lookupA (updateA acc v (lookupD acc v [] ++ [t])) c).isSome = true := by
        rcases h with h | h
        · left
          have hmc : c = v ∨ c ∈ List.map Prod.fst rest := by
            simp only [List.map_cons, List.mem_cons] at h
            exact h
          rcases hmc with h1 | h1
          · exact absurd h1.symm hvc
          · exact h1
        · right
          rw [hupd]
          exact h
      rw [ih (updateA acc v (lookupD acc v [] ++ [t])) c h']
      have hD : lookupD (updateA acc v (lookupD acc v [] ++ [t])) c [] = lookupD acc c [] := by
        simp [lookupD, hupd]
      have hP : pairTargets ((v, t) :: rest) c = pairTargets rest c := by
        simp [pairTargets, List.filterMap_cons, hvc]
      rw [hD, hP]

/-- Claim C8 (confirmed): for equal-length batches, every category occurring
in the input is mapped by `Get` to the arithmetic mean (`Avg`) of exactly the
target values paired with it, together with `found = true`. -/
theorem jamesSteinRegression_category_mean :
    ∀ (values : List String) (target : List ℚ) (c : String),
      values.length = target.length → c ∈ values →
      JamesSteinRegression.Get (NewJamesSteinRegression values target).1 c =
        (Avg (jsrTargets values target c), true) := by
  intro values target c hlen hc
  have hg : ¬(target.length ≠ values.length) := fun h => h hlen.symm
  have hmem : c ∈ (values.zip target).map Prod.fst := by
    rw [List.map_fst_zip values target (le_of_eq hlen)]
    exact hc
  have hbuild := buildTargetValues_lookup (values.zip target) [] c (Or.inl hmem)
  simp only [NewJamesSteinRegression, if_neg hg, JamesSteinRegression.Get]
  rw [lookupA_map_value Avg (buildTargetValues (values.zip target) []) c, hbuild]
  simp [lookupD, lookupA, jsrTargets]

/-- Witness for C8: the spec's worked example, category `"a"` with targets
`[2, 4]` yields `Get("a") = (3, true)`. -/
theorem jamesSteinRegression_category_mean_witness :
    JamesSteinRegression.Get (NewJamesSteinRegression ["a", "b", "a"] [2, 5, 4]).1 "a" =
      (3, true) := by
  have h := jamesSteinRegression_category_mean ["a", "b", "a"] [2, 5, 4] "a"
    (by decide) (by decide)
  have hlist : jsrTargets ["a", "b", "a"] [2, 5, 4] "a" = [2, 4] := by
    have hb : ¬("b" : String) = "a" := by decide
    norm_num [jsrTargets, pairTargets, List.filterMap_cons, hb]
  have hval : Avg (jsrTargets ["a", "b", "a"] [2, 5, 4] "a") = 3 := by
    rw [hlist]
    norm_num [Avg]
  rw [h, hval]

end Encoder
